import Mathlib

/-!
Verification of the duplicate-section remover and validator of the
`neutale-docs` maintenance scripts (`fix-api-spec.py`, `validate-spec.py`).

The first part embeds the line-oriented duplicate-block removal of
`fix_api_spec` (lines 20-76 of `fix-api-spec.py`), both in the generalized
form `remove_duplicates lines marker is_boundary` described by the design
document and in the concrete two-marker form the script hard-codes.
The second part embeds the regex quoting fix (lines 17-18) and the
validator `validate_openapi_spec` of `validate-spec.py`.
-/

/-- Whitespace characters of Python's `str.strip` / regex `\s` (ASCII). -/
def pyIsSpace (c : Char) : Bool :=
  c == ' ' || c == '\t' || c == '\n' || c == '\r' || c == '\x0b' || c == '\x0c'

/-- Python `str.strip()`: drop whitespace from both ends of a string. -/
def pyStrip (s : String) : String :=
  ⟨((s.data.dropWhile pyIsSpace).reverse.dropWhile pyIsSpace).reverse⟩

/-- Python `s.startswith(pre)`. -/
def pyStartswith (s pre : String) : Bool :=
  pre.data.isPrefixOf s.data

/-- Helper for substring search: does `sub` occur as a contiguous block? -/
def containsSub (sub : List Char) : List Char → Bool
  | [] => sub.isEmpty
  | c :: s => sub.isPrefixOf (c :: s) || containsSub sub s

/-- Python `sub in s` (substring containment). -/
def pyContains (s sub : String) : Bool :=
  containsSub sub.data s.data

/-- Indices of the lines matched by `marker`
(`for i, line in enumerate(lines): if marker(line): indices.append(i)`,
the pattern of lines 28-32 of `fix-api-spec.py`). -/
def matchIndices (marker : String → Bool) (lines : List String) : List Nat :=
  (List.range lines.length).filter (fun i => marker (lines.getD i ""))

/-- End of the section starting at `start`: the first index `j > start`
whose line satisfies `isBoundary`, or `len(lines)` when none does
(lines 46-51 / 62-67 of `fix-api-spec.py`: `end_idx = len(lines)` then
`for j in range(start_idx + 1, len(lines)): if boundary: end_idx = j; break`). -/
def boundaryIdx (isBoundary : String → Bool) (lines : List String) (start : Nat) : Nat :=
  match (List.range' (start + 1) (lines.length - (start + 1))).find?
      (fun j => isBoundary (lines.getD j "")) with
  | some j => j
  | none => lines.length

/-- The removal set of one marker (lines 38-54 of `fix-api-spec.py`):
for each match after the first, the span `[start, boundaryIdx start)`
is added to the accumulated set (`lines_to_remove.update(range(start_idx, end_idx))`). -/
def linesToRemove (marker isBoundary : String → Bool) (lines : List String) : Finset Nat :=
  let idxs := matchIndices marker lines
  if 1 < idxs.length then
    (idxs.drop 1).foldl
      (fun acc s => acc ∪ Finset.Ico s (boundaryIdx isBoundary lines s)) ∅
  else ∅

/-- Line 75 of `fix-api-spec.py`:
`[line for i, line in enumerate(lines) if i not in lines_to_remove]`,
written as an index filter over `range(len(lines))` followed by lookup. -/
def removeMarked (lines : List String) (rem : Finset Nat) : List String :=
  ((List.range lines.length).filter (fun i => decide (i ∉ rem))).map
    (fun i => lines.getD i "")

/-- The generalized duplicate-block remover of the design document,
embedding lines 22-76 of `fix-api-spec.py` for a single marker:
compute the removal set, and when it is nonempty filter the lines
(`if lines_to_remove: cleaned_lines = ...`), else leave them unchanged. -/
def remove_duplicates (marker isBoundary : String → Bool) (lines : List String) : List String :=
  let rem := linesToRemove marker isBoundary lines
  if rem.Nonempty then removeMarked lines rem else lines

/-- Line 29: `'/api/billing/plans:' in line.strip()`. -/
def billingSub (line : String) : Bool :=
  pyContains (pyStrip line) "/api/billing/plans:"

/-- Line 31 (`elif`): `'/api/webhooks/dodo:' in line.strip()` and the line
was not already counted as a billing line. -/
def webhookSub (line : String) : Bool :=
  !(billingSub line) && pyContains (pyStrip line) "/api/webhooks/dodo:"

/-- Lines 48-49: billing section boundary on the stripped line. -/
def billingBoundary (line : String) : Bool :=
  let l := pyStrip line
  pyStartswith l "# " || (pyStartswith l "/api/" && !(pyStartswith l "/api/billing"))

/-- Lines 64-65: webhook section boundary on the stripped line. -/
def webhookBoundary (line : String) : Bool :=
  let l := pyStrip line
  pyStartswith l "# " && !(pyContains l "Webhook")

/-- Indices collected for the billing marker (lines 28-30). -/
def billingIndices (lines : List String) : List Nat :=
  matchIndices billingSub lines

/-- Indices collected for the webhook marker (lines 28, 31-32). -/
def webhookIndices (lines : List String) : List Nat :=
  matchIndices webhookSub lines

/-- The full duplicate-removal pass of `fix_api_spec` (lines 22-76): both the
billing pass and the webhook pass accumulate into one shared removal set
(`lines_to_remove`), which is then filtered out in a single rewrite. -/
def fixSpecRemove (lines : List String) : List String :=
  let bIdx := billingIndices lines
  let wIdx := webhookIndices lines
  let rem₁ : Finset Nat :=
    if 1 < bIdx.length then
      (bIdx.drop 1).foldl
        (fun acc s => acc ∪ Finset.Ico s (boundaryIdx billingBoundary lines s)) ∅
    else ∅
  let rem : Finset Nat :=
    if 1 < wIdx.length then
      (wIdx.drop 1).foldl
        (fun acc s => acc ∪ Finset.Ico s (boundaryIdx webhookBoundary lines s)) rem₁
    else rem₁
  if rem.Nonempty then removeMarked lines rem else lines

/-- Marker used in concrete instantiations: the line equals `"m"`. -/
def eqM (l : String) : Bool := l == "m"

/-- Boundary predicate satisfied by no line at all. -/
def noBoundary (_ : String) : Bool := false

/-- Boundary predicate satisfied by every line. -/
def allBoundary (_ : String) : Bool := true

/-- Boundary used in concrete instantiations: the line equals `"b"`. -/
def bBoundary (l : String) : Bool := l == "b"

/-- Marker of the design document's worked example: the line equals `"/x:"`. -/
def xColonMarker (l : String) : Bool := l == "/x:"

/-- Boundary of the design document's worked example: the line starts with `"/"`. -/
def slashBoundary (l : String) : Bool := pyStartswith l "/"

/-- Concrete document used by several witnesses below. -/
def wDoc : List String := ["m", "x", "m", "b"]

/-- YAML/JSON-like values, covering what `yaml.safe_load` produces for the
documents in scope: strings, integers, sequences, string-keyed mappings. -/
inductive YVal where
  | str : String → YVal
  | num : Int → YVal
  | arr : List YVal → YVal
  | map : List (String × YVal) → YVal

/-- Python `len(v)` (line 33 / line 38 of `validate-spec.py`): sized for
strings, lists and dicts; raises `TypeError` on a number. -/
def pyLen : YVal → Except Unit Nat
  | .str s => .ok s.length
  | .arr xs => .ok xs.length
  | .map kvs => .ok kvs.length
  | .num _ => .error ()

/-- Python membership `k in v` (line 48 / line 67): key lookup on a dict,
substring test on a string, element equality on a list; raises on a number. -/
def pyIn (k : String) : YVal → Except Unit Bool
  | .map kvs => .ok (kvs.any (fun kv => kv.1 == k))
  | .str s => .ok (pyContains s k)
  | .arr xs => .ok (xs.any (fun x => match x with | .str t => t == k | _ => false))
  | .num _ => .error ()

/-- Python `v.get(k, d)` (lines 32, 36, 37, 63, 66, 68): only dicts have
`.get`; anything else raises `AttributeError`. -/
def pyGet (k : String) (d : YVal) : YVal → Except Unit YVal
  | .map kvs => .ok ((kvs.lookup k).getD d)
  | _ => .error ()

/-- Python `v.items()` (lines 60-61): only dicts have `.items()`. -/
def pyItems : YVal → Except Unit (List (String × YVal))
  | .map kvs => .ok kvs
  | _ => .error ()

/-- Python iteration `for x in v` (line 64): a list yields its elements, a
dict its keys, a string its characters (one-character strings); iterating a
number raises `TypeError`. -/
def pyIter : YVal → Except Unit (List YVal)
  | .arr xs => .ok xs
  | .map kvs => .ok (kvs.map (fun kv => YVal.str kv.1))
  | .str s => .ok (s.data.map (fun c => YVal.str ⟨[c]⟩))
  | .num _ => .error ()

mutual
/-- Model of `json.dumps(spec)` (line 41) for documents whose strings need
no JSON escaping: default separators, insertion-ordered keys. -/
def jsonDumps : YVal → String
  | .str s => "\"" ++ s ++ "\""
  | .num n => toString n
  | .arr xs => "[" ++ String.intercalate ", " (jsonDumpsList xs) ++ "]"
  | .map kvs => "\x7b" ++ String.intercalate ", " (jsonDumpsKVs kvs) ++ "\x7d"

/-- Dumps of the elements of a JSON array. -/
def jsonDumpsList : List YVal → List String
  | [] => []
  | x :: xs => jsonDumps x :: jsonDumpsList xs

/-- Dumps of the key-value pairs of a JSON object. -/
def jsonDumpsKVs : List (String × YVal) → List String
  | [] => []
  | kv :: kvs => ("\"" ++ kv.1 ++ "\": " ++ jsonDumps kv.2) :: jsonDumpsKVs kvs
end

/-- The literal searched by the regex `#/components/schemas/([^"]+)`. -/
def schemaRefLit : List Char := "#/components/schemas/".data

/-- Fuel-bounded scan of `re.findall(r'#/components/schemas/([^"]+)', s)`
(line 43): at each position where the literal occurs, capture the following
maximal nonempty run of non-quote characters and continue after it. -/
def findRefsGo : Nat → List Char → List String
  | 0, _ => []
  | _ + 1, [] => []
  | fuel + 1, c :: s =>
    if schemaRefLit.isPrefixOf (c :: s) then
      let after := (c :: s).drop schemaRefLit.length
      let cap := after.takeWhile (fun ch => ch != '\"')
      if cap.isEmpty then findRefsGo fuel s
      else String.mk cap :: findRefsGo fuel (after.drop cap.length)
    else findRefsGo fuel s

/-- All `$ref` capture groups found in a dumped document (line 43-44). -/
def findAllRefs (content : String) : List String :=
  findRefsGo content.data.length content.data

/-- Result of one `validate_openapi_spec` run: the returned boolean, the
missing-reference list of line 46-49, and whether the line-52 warning about
missing schema references was printed. -/
structure VResult where
  ok : Bool
  missingRefs : List String
  warned : Bool
deriving DecidableEq

/-- Line 24: `required_fields = ['openapi', 'info', 'paths']`. -/
def requiredFields : List String := ["openapi", "info", "paths"]

/-- Key membership in a mapping (`field not in spec`, line 26). -/
def hasKey (kvs : List (String × YVal)) (k : String) : Bool :=
  kvs.any (fun kv => kv.1 == k)

/-- Lines 46-49: `for ref in unique_refs: if ref not in schemas: append`. -/
def collectMissing (schemas : YVal) : List String → Except Unit (List String)
  | [] => .ok []
  | r :: rs => do
    let b ← pyIn r schemas
    let rest ← collectMissing schemas rs
    pure (if b then rest else r :: rest)

/-- Lines 64-69: the inner parameter loop; its body only reads values, so
its sole observable effect is a possible exception. -/
def paramLoopBody : YVal → Except Unit Unit
  | .map pkvs => do
    let schema := (pkvs.lookup "schema").getD (.map [])
    let b ← pyIn "default" schema
    if b then do
      let _ ← pyGet "default" (.num 0) schema
      pure ()
    else pure ()
  | _ => .ok ()

/-- Iteration of the parameter loop over the iterated `parameters` value. -/
def paramsLoop : List YVal → Except Unit Unit
  | [] => .ok ()
  | p :: ps => do
    paramLoopBody p
    paramsLoop ps

/-- Lines 61-69: `for method, details in methods.items()` with the
`isinstance(details, dict)` guard. -/
def methodsLoop : List (String × YVal) → Except Unit Unit
  | [] => .ok ()
  | md :: rest =>
    match md.2 with
    | .map details => do
      let elems ← pyIter ((details.lookup "parameters").getD (.arr []))
      paramsLoop elems
      methodsLoop rest
    | _ => methodsLoop rest

/-- Lines 60-69: `for path, methods in paths.items()`. -/
def pathsLoop : List (String × YVal) → Except Unit Unit
  | [] => .ok ()
  | pm :: rest => do
    let mitems ← pyItems pm.2
    methodsLoop mitems
    pathsLoop rest

/-- Lines 11-73: `validate_openapi_spec`, on a parse result that is either
a YAML error or a top-level string-keyed mapping. A `.error` result stands
for an exception escaping the function (caught by line 83's
`except Exception`); an `.ok` result carries the returned boolean. -/
def validateSpec (parsed : Except Unit (List (String × YVal))) : Except Unit VResult :=
  match parsed with
  | .error _ => .ok ⟨false, [], false⟩
  | .ok spec =>
    match requiredFields.find? (fun f => !(hasKey spec f)) with
    | some _ => .ok ⟨false, [], false⟩
    | none => do
      let paths := (spec.lookup "paths").getD (.map [])
      let _ ← pyLen paths
      let schemas ← pyGet "schemas" (.map []) ((spec.lookup "components").getD (.map []))
      let _ ← pyLen schemas
      let missing ← collectMissing schemas ((findAllRefs (jsonDumps (.map spec))).dedup)
      let pitems ← pyItems paths
      pathsLoop pitems
      pure ⟨true, missing, !missing.isEmpty⟩

/-- Observable outcome of one run of the script. -/
structure RunOutcome where
  exitCode : Nat
  printedSkip : Bool
  ranValidation : Bool
deriving DecidableEq

/-- Lines 6-85: the module body. When the `yaml` import succeeds the
validator runs and the exit code follows its result (lines 75-79), with
exceptions caught by line 83-85 (`sys.exit(1)`); when the import fails the
`except ImportError` handler prints the skip message and falls off the end
of the module, exiting 0 (lines 81-82). -/
def runScript (yamlAvailable : Bool)
    (parsed : Except Unit (List (String × YVal))) : RunOutcome :=
  if yamlAvailable then
    match validateSpec parsed with
    | .error _ => ⟨1, false, true⟩
    | .ok r => if r.ok then ⟨0, false, true⟩ else ⟨1, false, true⟩
  else ⟨0, true, false⟩

/-- All three required top-level fields are present (line 24-28). -/
def fieldsPresent (spec : List (String × YVal)) : Bool :=
  requiredFields.all (hasKey spec)

/-- The `components.schemas` mapping of a document (lines 36-37). -/
def schemasOf (spec : List (String × YVal)) : List (String × YVal) :=
  match (spec.lookup "components").getD (.map []) with
  | .map ckvs =>
    match (ckvs.lookup "schemas").getD (.map []) with
    | .map skvs => skvs
    | _ => []
  | _ => []

/-- The de-duplicated references that name no schema (lines 44-49). -/
def danglingRefs (spec : List (String × YVal)) : List String :=
  (findAllRefs (jsonDumps (.map spec))).dedup.filter
    (fun r => !(hasKey (schemasOf spec) r))

/-- A `schema` value on which lines 66-68 raise no exception: membership
`'default' in schema` must not raise (so not a number), and when that
membership holds, `schema.get` must exist (so `schema` must be a dict). -/
def benignSchemaVal : YVal → Bool
  | .num _ => false
  | .str s => !(pyContains s "default")
  | .arr xs => xs.all (fun x => match x with | .str t => !(t == "default") | _ => true)
  | .map _ => true

/-- A parameter element whose processing (lines 65-69) raises nothing. -/
def benignParam : YVal → Bool
  | .map pkvs => benignSchemaVal ((pkvs.lookup "schema").getD (.map []))
  | _ => true

/-- A `parameters` value whose iteration (line 64) raises nothing. -/
def benignParams : YVal → Bool
  | .num _ => false
  | .str _ => true
  | .map _ => true
  | .arr xs => xs.all benignParam

/-- A `details` value whose processing (lines 62-69) raises nothing. -/
def benignDetails : YVal → Bool
  | .map kvs => benignParams ((kvs.lookup "parameters").getD (.arr []))
  | _ => true

/-- A path's `methods` value on which `methods.items()` (line 61) and the
inner loops raise nothing. -/
def benignMethods : YVal → Bool
  | .map kvs => kvs.all (fun md => benignDetails md.2)
  | _ => false

/-- Documents on which the inspection loops of lines 31-71 raise no
exception: `paths` is a mapping of mappings with benign parameter lists,
and `components` (when present) is a mapping whose `schemas` is a mapping. -/
def wellFormed (spec : List (String × YVal)) : Bool :=
  (match (spec.lookup "paths").getD (.map []) with
   | .map pm => pm.all (fun pv => benignMethods pv.2)
   | _ => false) &&
  (match (spec.lookup "components").getD (.map []) with
   | .map ckvs =>
     (match (ckvs.lookup "schemas").getD (.map []) with
      | .map _ => true
      | _ => false)
   | _ => false)

/-- Document used by the C8 counterexample: parses, has all required
fields, but its `paths` value is a plain string. -/
def scalarPathsSpec : List (String × YVal) :=
  [("openapi", .str "3.0.0"), ("info", .map []), ("paths", .str "oops")]

/-- Document used by the C8 witness: well-formed, all fields present, one
dangling schema reference and no schema definitions. -/
def danglingRefSpec : List (String × YVal) :=
  [("openapi", .str "3.0.0"), ("info", .map []),
   ("paths", .map [("/a", .map [("get", .map [])])]),
   ("link", .str "#/components/schemas/Missing")]

/-- Head match of Python `re.sub(r'(\s+)lit(\s)', r'\1rep\2', ...)`: when
the pattern matches at the start of `s`, return the replacement output
(captured whitespace run, then `rep`, then the captured trailing
whitespace character) together with the input remaining after the match.
Because `lit` begins with a non-whitespace character, the greedy `\s+` can
only succeed by taking the whole leading whitespace run. -/
def subMatchAt (lit rep : List Char) (s : List Char) : Option (List Char × List Char) :=
  let w := s.takeWhile pyIsSpace
  let r := s.dropWhile pyIsSpace
  if w.isEmpty then none
  else if lit.isPrefixOf r then
    match r.drop lit.length with
    | c :: rest => if pyIsSpace c then some (w ++ rep ++ [c], rest) else none
    | [] => none
  else none

/-- Left-to-right, non-overlapping scan of `re.sub`: at each position try a
match; on success emit the replacement and continue after the match, else
keep the character and move on. The fuel only bounds recursion; any fuel of
at least the input length is enough, as every step consumes a character. -/
def subGo (lit rep : List Char) : Nat → List Char → List Char
  | 0, s => s
  | _ + 1, [] => []
  | fuel + 1, c :: s =>
    match subMatchAt lit rep (c :: s) with
    | some (out, rest) => out ++ subGo lit rep fuel rest
    | none => c :: subGo lit rep fuel s

/-- Python `re.sub(r'(\s+)lit(\s)', r'\1rep\2', content)`. -/
def reSubWs (lit rep content : String) : String :=
  ⟨subGo lit.data rep.data content.data.length content.data⟩

/-- Lines 17-18 of `fix-api-spec.py`: quote the bare `default: en` and
`default: published` values, in that order. -/
def fixQuoting (content : String) : String :=
  reSubWs "default: published" "default: \"published\""
    (reSubWs "default: en" "default: \"en\"" content)

lemma mem_matchIndices {m : String → Bool} {lines : List String} {i : Nat} :
    i ∈ matchIndices m lines ↔ i < lines.length ∧ m (lines.getD i "") = true := by
  simp [matchIndices, List.mem_filter, List.mem_range]

lemma matchIndices_pairwise (m : String → Bool) (lines : List String) :
    (matchIndices m lines).Pairwise (· < ·) :=
  (List.pairwise_lt_range _).filter _

lemma matchIndices_length (m : String → Bool) : ∀ lines : List String,
    (matchIndices m lines).length = lines.countP m := by
  intro lines
  induction lines with
  | nil => rfl
  | cons a ls ih =>
    simp only [matchIndices, List.length_cons, List.range_succ_eq_map,
      List.filter_cons, List.filter_map, List.getD_cons_zero, List.countP_cons]
    have hcomp : ∀ i : Nat,
        ((fun i => m ((a :: ls).getD i "")) ∘ Nat.succ) i = m (ls.getD i "") := by
      intro i; simp [Function.comp, List.getD_cons_succ]
    rw [List.filter_congr (fun x _ => hcomp x)]
    by_cases hma : m a = true
    · simp [hma, matchIndices] at ih ⊢; omega
    · simp only [Bool.not_eq_true] at hma
      simp [hma, matchIndices] at ih ⊢; omega

lemma find?_range'_spec (p : Nat → Bool) :
    ∀ (cnt st : Nat),
      (∀ j, (List.range' st cnt).find? p = some j →
        st ≤ j ∧ j < st + cnt ∧ p j = true ∧ ∀ k, st ≤ k → k < j → p k = false) ∧
      ((List.range' st cnt).find? p = none →
        ∀ k, st ≤ k → k < st + cnt → p k = false) := by
  intro cnt
  induction cnt with
  | zero =>
    intro st
    constructor
    · intro j h; simp [List.range'] at h
    · intro _ k hk hk'; omega
  | succ n ih =>
    intro st
    rw [List.range'_succ]
    constructor
    · intro j h
      rw [List.find?_cons] at h
      by_cases hp : p st = true
      · simp [hp] at h
        subst h
        exact ⟨le_refl _, by omega, hp, fun k hk hk' => by omega⟩
      · simp only [Bool.not_eq_true] at hp
        simp [hp] at h
        obtain ⟨h3, ⟨h1, h2⟩, h4⟩ := h
        refine ⟨by omega, by omega, h3, fun k hk hk' => ?_⟩
        rcases Nat.eq_or_lt_of_le hk with rfl | hlt
        · exact hp
        · exact h4 k (by omega) hk'
    · intro h k hk hk'
      rw [List.find?_cons] at h
      by_cases hp : p st = true
      · simp [hp] at h
      · simp only [Bool.not_eq_true] at hp
        simp [hp] at h
        rcases Nat.eq_or_lt_of_le hk with rfl | hlt
        · exact hp
        · exact h k (by omega) (by omega)

lemma boundaryIdx_gt (b : String → Bool) (lines : List String) (s : Nat)
    (hs : s < lines.length) : s < boundaryIdx b lines s := by
  unfold boundaryIdx
  rcases hfind : (List.range' (s + 1) (lines.length - (s + 1))).find?
      (fun j => b (lines.getD j "")) with _ | j
  · simpa using hs
  · have := (find?_range'_spec (fun j => b (lines.getD j "")) (lines.length - (s + 1)) (s + 1)).1 j hfind
    simp only
    omega

lemma boundaryIdx_le (b : String → Bool) (lines : List String) (s : Nat) :
    boundaryIdx b lines s ≤ lines.length := by
  unfold boundaryIdx
  rcases hfind : (List.range' (s + 1) (lines.length - (s + 1))).find?
      (fun j => b (lines.getD j "")) with _ | j
  · simp
  · have := (find?_range'_spec (fun j => b (lines.getD j "")) (lines.length - (s + 1)) (s + 1)).1 j hfind
    simp only
    omega

lemma mem_foldl_union (f : Nat → Finset Nat) (k : Nat) :
    ∀ (l : List Nat) (init : Finset Nat),
      (k ∈ l.foldl (fun acc s => acc ∪ f s) init ↔ k ∈ init ∨ ∃ s ∈ l, k ∈ f s) := by
  intro l
  induction l with
  | nil => intro init; simp
  | cons a t ih =>
    intro init
    simp only [List.foldl_cons, ih (init ∪ f a), Finset.mem_union, List.mem_cons]
    constructor
    · rintro ((h | h) | ⟨s, hs, hk⟩)
      · exact Or.inl h
      · exact Or.inr ⟨a, Or.inl rfl, h⟩
      · exact Or.inr ⟨s, Or.inr hs, hk⟩
    · rintro (h | ⟨s, rfl | hs, hk⟩)
      · exact Or.inl (Or.inl h)
      · exact Or.inl (Or.inr hk)
      · exact Or.inr ⟨s, hs, hk⟩

lemma mem_linesToRemove {m b : String → Bool} {lines : List String} {k : Nat} :
    k ∈ linesToRemove m b lines ↔
      ∃ s ∈ (matchIndices m lines).drop 1, s ≤ k ∧ k < boundaryIdx b lines s := by
  unfold linesToRemove
  by_cases h : 1 < (matchIndices m lines).length
  · simp only [h, if_true, mem_foldl_union, Finset.not_mem_empty, false_or, Finset.mem_Ico]
  · simp only [h, if_false]
    have hd : (matchIndices m lines).drop 1 = [] := by
      rw [List.drop_eq_nil_iff]; omega
    simp [hd]

lemma map_getD_range : ∀ ls : List String,
    (List.range ls.length).map (fun i => ls.getD i "") = ls := by
  intro ls
  induction ls with
  | nil => rfl
  | cons a t ih =>
    simp only [List.length_cons, List.range_succ_eq_map, List.map_cons, List.getD_cons_zero,
      List.map_map]
    congr 1

lemma removeMarked_empty (lines : List String) : removeMarked lines ∅ = lines := by
  unfold removeMarked
  have h1 : ((List.range lines.length).filter (fun i => decide (i ∉ (∅ : Finset Nat))))
      = List.range lines.length := by
    apply List.filter_eq_self.2
    intro a _; simp
  rw [h1, map_getD_range]

lemma remove_duplicates_eq (m b : String → Bool) (lines : List String) :
    remove_duplicates m b lines = removeMarked lines (linesToRemove m b lines) := by
  unfold remove_duplicates
  by_cases h : (linesToRemove m b lines).Nonempty
  · simp [h]
  · rw [Finset.not_nonempty_iff_eq_empty] at h
    simp [h, removeMarked_empty]

lemma tail_subset_linesToRemove {m b : String → Bool} {lines : List String} {s : Nat}
    (hs : s ∈ (matchIndices m lines).drop 1) : s ∈ linesToRemove m b lines := by
  rw [mem_linesToRemove]
  refine ⟨s, hs, le_refl s, ?_⟩
  have hmem : s ∈ matchIndices m lines := List.mem_of_mem_drop hs
  exact boundaryIdx_gt b lines s (mem_matchIndices.1 hmem).1

lemma head_not_mem_linesToRemove {m b : String → Bool} {lines : List String}
    {i₀ : Nat} {rest : List Nat} (h : matchIndices m lines = i₀ :: rest) :
    i₀ ∉ linesToRemove m b lines := by
  intro hmem
  rw [mem_linesToRemove] at hmem
  obtain ⟨s, hs, hsk, _⟩ := hmem
  rw [h] at hs
  simp only [List.drop_one, List.tail_cons] at hs
  have hp := matchIndices_pairwise m lines
  rw [h, List.pairwise_cons] at hp
  have := hp.1 s hs
  omega

lemma linesToRemove_lt_length {m b : String → Bool} {lines : List String} {k : Nat}
    (hk : k ∈ linesToRemove m b lines) : k < lines.length := by
  rw [mem_linesToRemove] at hk
  obtain ⟨s, _, _, hlt⟩ := hk
  have := boundaryIdx_le b lines s
  omega

lemma countP_removeMarked (m : String → Bool) (lines : List String) (rem : Finset Nat) :
    (removeMarked lines rem).countP m
      = ((matchIndices m lines).filter (fun i => decide (i ∉ rem))).length := by
  unfold removeMarked matchIndices
  rw [List.countP_map, List.countP_eq_length_filter, List.filter_filter, List.filter_filter]
  congr 1
  apply List.filter_congr
  intro x _
  exact Bool.and_comm _ _

lemma countP_range_not_mem : ∀ (n : Nat) (rem : Finset Nat), (∀ k ∈ rem, k < n) →
    (List.range n).countP (fun i => decide (i ∉ rem)) = n - rem.card := by
  intro n
  induction n with
  | zero =>
    intro rem h
    have : rem = ∅ := Finset.eq_empty_iff_forall_not_mem.2 (fun k hk => by
      have := h k hk; omega)
    simp [this]
  | succ n ih =>
    intro rem h
    have hsub : rem ⊆ Finset.range (n + 1) := fun k hk => Finset.mem_range.2 (h k hk)
    have hcard : rem.card ≤ n + 1 := by
      have := Finset.card_le_card hsub
      simpa using this
    rw [List.range_succ, List.countP_append]
    by_cases hn : n ∈ rem
    · have herase : ∀ k ∈ rem.erase n, k < n := by
        intro k hk
        have h1 := Finset.mem_of_mem_erase hk
        have h2 := Finset.ne_of_mem_erase hk
        have := h k h1
        omega
      have hcongr : (List.range n).countP (fun i => decide (i ∉ rem))
          = (List.range n).countP (fun i => decide (i ∉ rem.erase n)) := by
        apply List.countP_congr
        intro a ha
        have halt : a < n := List.mem_range.1 ha
        by_cases hmem : a ∈ rem
        · simp [hmem, Finset.mem_erase, hmem, Nat.ne_of_lt halt]
        · simp [hmem, fun hc => hmem (Finset.mem_of_mem_erase hc)]
      rw [hcongr, ih (rem.erase n) herase]
      have hce : (rem.erase n).card = rem.card - 1 := Finset.card_erase_of_mem hn
      have hpos : 0 < rem.card := Finset.card_pos.2 ⟨n, hn⟩
      simp only [List.countP_cons, List.countP_nil, hn]
      simp [hn]
      omega
    · have hall : ∀ k ∈ rem, k < n := by
        intro k hk
        have := h k hk
        rcases Nat.lt_succ_iff_lt_or_eq.1 this with h' | rfl
        · exact h'
        · exact absurd hk hn
      rw [ih rem hall]
      have hcard' : rem.card ≤ n := by
        have hsub' : rem ⊆ Finset.range n := fun k hk => Finset.mem_range.2 (hall k hk)
        have := Finset.card_le_card hsub'
        simpa using this
      simp only [List.countP_cons, List.countP_nil, hn]
      simp [hn]
      omega

lemma length_removeMarked (lines : List String) (rem : Finset Nat)
    (h : ∀ k ∈ rem, k < lines.length) :
    (removeMarked lines rem).length = lines.length - rem.card := by
  unfold removeMarked
  rw [List.length_map, ← List.countP_eq_length_filter]
  exact countP_range_not_mem lines.length rem h

lemma linesToRemove_eq_empty {m b : String → Bool} {lines : List String}
    (h : ¬ 1 < (matchIndices m lines).length) : linesToRemove m b lines = ∅ := by
  unfold linesToRemove
  simp [h]

lemma rd_eq_self_of_length_le_one {m b : String → Bool} {lines : List String}
    (h : (matchIndices m lines).length ≤ 1) : remove_duplicates m b lines = lines := by
  rw [remove_duplicates_eq, linesToRemove_eq_empty (by omega), removeMarked_empty]

lemma filter_matchIndices_eq_head {m b : String → Bool} {lines : List String}
    {i₀ : Nat} {rest : List Nat} (h : matchIndices m lines = i₀ :: rest) :
    (matchIndices m lines).filter
      (fun i => decide (i ∉ linesToRemove m b lines)) = [i₀] := by
  rw [h, List.filter_cons]
  have h0 : i₀ ∉ linesToRemove m b lines := head_not_mem_linesToRemove h
  simp only [h0, decide_not, decide_False, Bool.not_false, if_true]
  have hrest : rest.filter (fun i => !decide (i ∈ linesToRemove m b lines)) = [] := by
    apply List.filter_eq_nil_iff.2
    intro s hs
    have hmem : s ∈ (matchIndices m lines).drop 1 := by
      rw [h]; simpa using hs
    have := tail_subset_linesToRemove (b := b) hmem
    simp [this]
  rw [hrest]

lemma countP_remove_eq_one {m b : String → Bool} {lines : List String}
    (h : 1 < (matchIndices m lines).length) :
    (remove_duplicates m b lines).countP m = 1 := by
  rw [remove_duplicates_eq, countP_removeMarked]
  rcases hm : matchIndices m lines with _ | ⟨i₀, rest⟩
  · rw [hm] at h; simp at h
  · rw [← hm, filter_matchIndices_eq_head hm]
    rfl

lemma boundaryIdx_spec (b : String → Bool) (lines : List String) (s : Nat)
    (hs : s < lines.length) :
    (boundaryIdx b lines s = lines.length ∧
       ∀ j, s < j → j < lines.length → b (lines.getD j "") = false) ∨
    (s < boundaryIdx b lines s ∧ boundaryIdx b lines s < lines.length ∧
       b (lines.getD (boundaryIdx b lines s) "") = true ∧
       ∀ j, s < j → j < boundaryIdx b lines s → b (lines.getD j "") = false) := by
  unfold boundaryIdx
  rcases hfind : (List.range' (s + 1) (lines.length - (s + 1))).find?
      (fun j => b (lines.getD j "")) with _ | j
  · left
    refine ⟨rfl, fun j hj hj' => ?_⟩
    exact (find?_range'_spec (fun j => b (lines.getD j "")) (lines.length - (s + 1)) (s + 1)).2
      hfind j (by omega) (by omega)
  · right
    obtain ⟨h1, h2, h3, h4⟩ := (find?_range'_spec (fun j => b (lines.getD j ""))
      (lines.length - (s + 1)) (s + 1)).1 j hfind
    simp only
    exact ⟨by omega, by omega, h3, fun k hk hk' => h4 k (by omega) hk'⟩

lemma find?_congr_mem {α : Type} {p q : α → Bool} :
    ∀ l : List α, (∀ a ∈ l, p a = q a) → l.find? p = l.find? q := by
  intro l
  induction l with
  | nil => intro _; rfl
  | cons a t ih =>
    intro h
    rw [List.find?_cons, List.find?_cons, h a (List.mem_cons_self a t)]
    rcases q a with _ | _
    · exact ih (fun x hx => h x (List.mem_cons_of_mem a hx))
    · rfl

lemma boundaryIdx_congr {b b' : String → Bool} {lines : List String} {s : Nat}
    (h : ∀ j, s < j → j < lines.length → b' (lines.getD j "") = b (lines.getD j "")) :
    boundaryIdx b' lines s = boundaryIdx b lines s := by
  unfold boundaryIdx
  rw [find?_congr_mem (List.range' (s + 1) (lines.length - (s + 1)))
    (fun j hj => ?_)]
  rw [List.mem_range'] at hj
  obtain ⟨i, hi, rfl⟩ := hj
  exact h _ (by omega) (by omega)

lemma getD_head_mem_remove_duplicates {m b : String → Bool} {lines : List String}
    {i₀ : Nat} {rest : List Nat} (h : matchIndices m lines = i₀ :: rest) :
    lines.getD i₀ "" ∈ remove_duplicates m b lines := by
  rw [remove_duplicates_eq]
  unfold removeMarked
  apply List.mem_map_of_mem
  rw [List.mem_filter]
  refine ⟨List.mem_range.2 (mem_matchIndices.1 (h ▸ List.mem_cons_self i₀ rest)).1, ?_⟩
  simp [head_not_mem_linesToRemove h]

lemma removeMarked_sublist (lines : List String) (rem : Finset Nat) :
    (removeMarked lines rem).Sublist lines := by
  unfold removeMarked
  have h := (List.filter_sublist (p := fun i => decide (i ∉ rem))
    (List.range lines.length)).map (fun i => lines.getD i "")
  rwa [map_getD_range] at h

/-- C3: with fewer than two matches of the marker, `remove_duplicates`
returns the input unchanged; no error is involved (the function is total). -/
theorem remove_duplicates_few_matches_id (m b : String → Bool) (lines : List String)
    (h : (matchIndices m lines).length < 2) : remove_duplicates m b lines = lines :=
  rd_eq_self_of_length_le_one (by omega)

theorem remove_duplicates_few_matches_id_witness :
    (matchIndices eqM ["a", "m"]).length < 2 ∧
    remove_duplicates eqM noBoundary ["a", "m"] = ["a", "m"] :=
  ⟨by decide, remove_duplicates_few_matches_id eqM noBoundary ["a", "m"] (by decide)⟩

/-- C4: `remove_duplicates` is idempotent for every marker, boundary
predicate and document. -/
theorem remove_duplicates_idempotent (m b : String → Bool) (lines : List String) :
    remove_duplicates m b (remove_duplicates m b lines) = remove_duplicates m b lines := by
  by_cases h : 1 < (matchIndices m lines).length
  · apply rd_eq_self_of_length_le_one
    rw [matchIndices_length, countP_remove_eq_one (b := b) h]
  · have heq := @rd_eq_self_of_length_le_one m b lines (by omega)
    rw [heq]
    exact heq

/-- C6: the design document's worked example evaluates as stated. -/
theorem remove_duplicates_example_eval :
    remove_duplicates xColonMarker slashBoundary
        ["a:", "/x:", "  foo", "/y:", "/x:", "  bar", "/z:"]
      = ["a:", "/x:", "  foo", "/y:", "/z:"] := by decide

/-- C1 counterexample: on `["m", "m", "m"]` with a boundary no line satisfies,
the two spans `[1, 3)` and `[2, 3)` overlap; the output has 1 line while the
input line count minus the sum of the span lengths is `3 - 3 = 0`. -/
theorem remove_duplicates_overlap_sum_cex :
    (remove_duplicates eqM noBoundary ["m", "m", "m"]).length = 1 ∧
    (((matchIndices eqM ["m", "m", "m"]).drop 1).map
        (fun s => boundaryIdx noBoundary ["m", "m", "m"] s - s)).sum = 3 ∧
    ¬ ((remove_duplicates eqM noBoundary ["m", "m", "m"]).length
        = ["m", "m", "m"].length - 3) := by decide

/-- C1 (amended): with at least two matches the result keeps exactly one
occurrence of the marker, namely the first, and the line count drops by the
cardinality of the union of the removed spans (which is the sum of the span
lengths only when the spans are disjoint). -/
theorem remove_duplicates_single_survivor (m b : String → Bool) (lines : List String)
    (i₀ i₁ : Nat) (rest : List Nat) (h : matchIndices m lines = i₀ :: i₁ :: rest) :
    (remove_duplicates m b lines).countP m = 1 ∧
    lines.getD i₀ "" ∈ remove_duplicates m b lines ∧
    (remove_duplicates m b lines).length
      = lines.length - (linesToRemove m b lines).card := by
  refine ⟨countP_remove_eq_one (by rw [h]; simp), getD_head_mem_remove_duplicates h, ?_⟩
  rw [remove_duplicates_eq]
  exact length_removeMarked lines _ (fun k hk => linesToRemove_lt_length hk)

theorem remove_duplicates_single_survivor_witness :
    matchIndices eqM wDoc = [0, 2] ∧
    ((remove_duplicates eqM bBoundary wDoc).countP eqM = 1 ∧
     wDoc.getD 0 "" ∈ remove_duplicates eqM bBoundary wDoc ∧
     (remove_duplicates eqM bBoundary wDoc).length
       = wDoc.length - (linesToRemove eqM bBoundary wDoc).card) :=
  ⟨by decide, remove_duplicates_single_survivor eqM bBoundary wDoc 0 2 [] (by decide)⟩

/-- C2: the removal set is exactly the union of the spans
`[s, boundaryIdx s)` over the matches `s` after the first; `boundaryIdx s`
is the first index past `s` whose line satisfies the boundary predicate, or
the document length when none does; and the output filters the marked
indices out of the input, keeping the retained lines in relative order
(it is a sublist of the input). -/
theorem remove_duplicates_span_characterization (m b : String → Bool) (lines : List String) :
    (∀ k, k ∈ linesToRemove m b lines ↔
       ∃ s ∈ (matchIndices m lines).drop 1, s ≤ k ∧ k < boundaryIdx b lines s) ∧
    (∀ s, s ∈ (matchIndices m lines).drop 1 →
       (boundaryIdx b lines s = lines.length ∧
          ∀ j, s < j → j < lines.length → b (lines.getD j "") = false) ∨
       (s < boundaryIdx b lines s ∧ boundaryIdx b lines s < lines.length ∧
          b (lines.getD (boundaryIdx b lines s) "") = true ∧
          ∀ j, s < j → j < boundaryIdx b lines s → b (lines.getD j "") = false)) ∧
    remove_duplicates m b lines = removeMarked lines (linesToRemove m b lines) ∧
    (remove_duplicates m b lines).Sublist lines := by
  refine ⟨fun k => mem_linesToRemove, fun s hs => ?_, remove_duplicates_eq m b lines, ?_⟩
  · exact boundaryIdx_spec b lines s
      (mem_matchIndices.1 (List.mem_of_mem_drop hs)).1
  · rw [remove_duplicates_eq]
    exact removeMarked_sublist lines _

theorem remove_duplicates_span_characterization_witness :
    2 ∈ (matchIndices eqM wDoc).drop 1 ∧
    ((boundaryIdx bBoundary wDoc 2 = wDoc.length ∧
        ∀ j, 2 < j → j < wDoc.length → bBoundary (wDoc.getD j "") = false) ∨
     (2 < boundaryIdx bBoundary wDoc 2 ∧ boundaryIdx bBoundary wDoc 2 < wDoc.length ∧
        bBoundary (wDoc.getD (boundaryIdx bBoundary wDoc 2) "") = true ∧
        ∀ j, 2 < j → j < boundaryIdx bBoundary wDoc 2 →
          bBoundary (wDoc.getD j "") = false)) :=
  ⟨by decide,
   (remove_duplicates_span_characterization eqM bBoundary wDoc).2.1 2 (by decide)⟩

/-- C5 counterexample: in the script's two-marker pass the sole (hence first)
occurrence of the billing marker, at index 2, falls inside the removal span
of the duplicated webhook section and is deleted from the output. -/
theorem fixSpecRemove_first_occurrence_removed_cex :
    billingIndices ["/api/webhooks/dodo:", "/api/webhooks/dodo:", "/api/billing/plans:"]
      = [2] ∧
    fixSpecRemove ["/api/webhooks/dodo:", "/api/webhooks/dodo:", "/api/billing/plans:"]
      = ["/api/webhooks/dodo:"] ∧
    (fixSpecRemove ["/api/webhooks/dodo:", "/api/webhooks/dodo:", "/api/billing/plans:"]).all
        (fun l => !(billingSub l)) = true := by decide

/-- C5 (amended): for a single marker the index of the first occurrence is
never in that marker's removal set and its line always appears in the
output; with several markers sharing one removal set this can fail. -/
theorem remove_duplicates_first_occurrence_survives (m b : String → Bool)
    (lines : List String) (i₀ : Nat) (rest : List Nat)
    (h : matchIndices m lines = i₀ :: rest) :
    i₀ ∉ linesToRemove m b lines ∧
    lines.getD i₀ "" ∈ remove_duplicates m b lines :=
  ⟨head_not_mem_linesToRemove h, getD_head_mem_remove_duplicates h⟩

theorem remove_duplicates_first_occurrence_survives_witness :
    matchIndices eqM ["q", "m", "m"] = [1, 2] ∧
    (1 ∉ linesToRemove eqM noBoundary ["q", "m", "m"] ∧
     ["q", "m", "m"].getD 1 "" ∈ remove_duplicates eqM noBoundary ["q", "m", "m"]) :=
  ⟨by decide,
   remove_duplicates_first_occurrence_survives eqM noBoundary ["q", "m", "m"] 1 [2]
     (by decide)⟩

/-- C9: for every match after the first, the boundary scan starts strictly
after the match line (so `boundaryIdx` only depends on the boundary
predicate's values past the match), every removed span contains at least
the duplicate marker line — even when that line itself satisfies the
boundary predicate — and no occurrence of the marker after the first
survives in the output. -/
theorem boundary_scan_after_match (m b : String → Bool) (lines : List String) (s : Nat)
    (h : s ∈ (matchIndices m lines).drop 1) :
    (∀ b' : String → Bool,
        (∀ j, s < j → j < lines.length → b' (lines.getD j "") = b (lines.getD j "")) →
        boundaryIdx b' lines s = boundaryIdx b lines s) ∧
    s < boundaryIdx b lines s ∧
    s ∈ linesToRemove m b lines ∧
    (remove_duplicates m b lines).countP m = 1 := by
  have hlen : 1 < (matchIndices m lines).length := by
    have hne := List.ne_nil_of_mem h
    have := List.length_drop 1 (matchIndices m lines)
    rcases Nat.lt_or_ge 1 (matchIndices m lines).length with h' | h'
    · exact h'
    · exfalso
      apply hne
      rw [List.drop_eq_nil_iff]
      omega
  refine ⟨fun b' hb' => boundaryIdx_congr hb', ?_, tail_subset_linesToRemove h,
    countP_remove_eq_one hlen⟩
  exact boundaryIdx_gt b lines s (mem_matchIndices.1 (List.mem_of_mem_drop h)).1

theorem boundary_scan_after_match_witness :
    1 ∈ (matchIndices eqM ["m", "m"]).drop 1 ∧ allBoundary "m" = true ∧
    (1 < boundaryIdx allBoundary ["m", "m"] 1 ∧
     1 ∈ linesToRemove eqM allBoundary ["m", "m"] ∧
     (remove_duplicates eqM allBoundary ["m", "m"]).countP eqM = 1) :=
  ⟨by decide, by decide,
   (boundary_scan_after_match eqM allBoundary ["m", "m"] 1 (by decide)).2⟩

/-- Unfolding of Python key membership on a dict value. -/
lemma pyIn_map (k : String) (kvs : List (String × YVal)) :
    pyIn k (.map kvs) = .ok (hasKey kvs k) := rfl

lemma collectMissing_map (skvs : List (String × YVal)) :
    ∀ l : List String, collectMissing (.map skvs) l
      = .ok (l.filter (fun r => !(hasKey skvs r))) := by
  intro l
  induction l with
  | nil => rfl
  | cons r rs ih =>
    simp only [collectMissing, pyIn_map, Bind.bind, Except.bind, ih, List.filter_cons]
    rcases h : hasKey skvs r with _ | _ <;> simp [h, pure, Except.pure]

lemma paramLoopBody_ok (p : YVal) (h : benignParam p = true) :
    paramLoopBody p = .ok () := by
  rcases p with s | n | xs | pkvs
  · rfl
  · rfl
  · rfl
  · simp only [benignParam] at h
    rcases hs : (pkvs.lookup "schema").getD (.map []) with s | n | xs | mkv
    · rw [hs] at h
      simp only [benignSchemaVal] at h
      simp [paramLoopBody, hs, pyIn, Bind.bind, Except.bind]
      simp only [Bool.not_eq_true'] at h
      simp [h, pure, Except.pure]
    · rw [hs] at h
      simp [benignSchemaVal] at h
    · rw [hs] at h
      simp only [benignSchemaVal] at h
      have hany : (xs.any fun x => match x with | .str t => t == "default" | _ => false) = false := by
        rw [List.any_eq_false]
        intro x hx
        have := (List.all_eq_true.1 h) x hx
        rcases x with t | _ | _ | _ <;> simp_all
      simp [paramLoopBody, hs, pyIn, hany, Bind.bind, Except.bind, pure, Except.pure]
    · simp [paramLoopBody, hs, pyIn, pyGet, Bind.bind, Except.bind]
      rcases hb : (mkv.any fun kv => kv.1 == "default") with _ | _ <;>
        simp [hb, pure, Except.pure]

lemma paramsLoop_ok : ∀ l : List YVal, (∀ p ∈ l, benignParam p = true) →
    paramsLoop l = .ok () := by
  intro l
  induction l with
  | nil => intro _; rfl
  | cons p ps ih =>
    intro h
    simp only [paramsLoop, paramLoopBody_ok p (h p (List.mem_cons_self p ps)),
      Bind.bind, Except.bind]
    exact ih (fun q hq => h q (List.mem_cons_of_mem p hq))

lemma benignParams_iter_ok (params : YVal) (h : benignParams params = true) :
    ∃ elems, pyIter params = .ok elems ∧ paramsLoop elems = .ok () := by
  rcases params with s | n | xs | kvs
  · refine ⟨_, rfl, paramsLoop_ok _ ?_⟩
    intro p hp
    simp only [List.mem_map] at hp
    obtain ⟨c, _, rfl⟩ := hp
    rfl
  · simp [benignParams] at h
  · refine ⟨xs, rfl, paramsLoop_ok xs ?_⟩
    intro p hp
    exact (List.all_eq_true.1 h) p hp
  · refine ⟨_, rfl, paramsLoop_ok _ ?_⟩
    intro p hp
    simp only [pyIter, List.mem_map] at hp
    obtain ⟨kv, _, rfl⟩ := hp
    rfl

lemma methodsLoop_ok : ∀ l : List (String × YVal),
    (∀ md ∈ l, benignDetails md.2 = true) → methodsLoop l = .ok () := by
  intro l
  induction l with
  | nil => intro _; rfl
  | cons md rest ih =>
    intro h
    have hmd := h md (List.mem_cons_self md rest)
    have hrest := fun x hx => h x (List.mem_cons_of_mem md hx)
    rcases hdet : md.2 with s | n | xs | details
    · simp only [methodsLoop, hdet]; exact ih hrest
    · simp only [methodsLoop, hdet]; exact ih hrest
    · simp only [methodsLoop, hdet]; exact ih hrest
    · rw [hdet] at hmd
      simp only [benignDetails] at hmd
      obtain ⟨elems, hiter, hloop⟩ := benignParams_iter_ok _ hmd
      simp only [methodsLoop, hdet, hiter, hloop, Bind.bind, Except.bind]
      exact ih hrest

lemma pathsLoop_ok : ∀ l : List (String × YVal),
    (∀ pm ∈ l, benignMethods pm.2 = true) → pathsLoop l = .ok () := by
  intro l
  induction l with
  | nil => intro _; rfl
  | cons pm rest ih =>
    intro h
    have hpm := h pm (List.mem_cons_self pm rest)
    have hrest := fun x hx => h x (List.mem_cons_of_mem pm hx)
    rcases hmv : pm.2 with s | n | xs | kvs
    · rw [hmv] at hpm; simp [benignMethods] at hpm
    · rw [hmv] at hpm; simp [benignMethods] at hpm
    · rw [hmv] at hpm; simp [benignMethods] at hpm
    · rw [hmv] at hpm
      simp only [benignMethods] at hpm
      have hml : methodsLoop kvs = .ok () := methodsLoop_ok kvs
        (fun md hmd => (List.all_eq_true.1 hpm) md hmd)
      simp only [pathsLoop, hmv, pyItems, hml, Bind.bind, Except.bind]
      exact ih hrest

lemma find?_requiredFields_none {t : List (String × YVal)}
    (hfp : fieldsPresent t = true) :
    requiredFields.find? (fun f => !(hasKey t f)) = none := by
  rw [List.find?_eq_none]
  intro f hf
  have := (List.all_eq_true.1 hfp) f hf
  simp [this]

lemma find?_requiredFields_isSome {t : List (String × YVal)}
    (hfp : fieldsPresent t = false) :
    (requiredFields.find? (fun f => !(hasKey t f))).isSome = true := by
  rw [List.find?_isSome]
  by_contra hc
  push_neg at hc
  apply absurd hfp
  simp only [fieldsPresent]
  rw [Bool.not_eq_false, List.all_eq_true]
  intro f hf
  have := hc f hf
  simp only [Bool.not_eq_true'] at this
  simpa using this

lemma validateSpec_fields_ok {t : List (String × YVal)} {r : VResult}
    (h : validateSpec (Except.ok t) = .ok r) (hok : r.ok = true) :
    fieldsPresent t = true := by
  rcases hb : fieldsPresent t with _ | _
  · exfalso
    have hsome := find?_requiredFields_isSome hb
    rcases hfind : requiredFields.find? (fun f => !(hasKey t f)) with _ | f
    · rw [hfind] at hsome; simp at hsome
    · rw [validateSpec.eq_def] at h
      simp only [hfind] at h
      injection h with h
      rw [← h] at hok
      simp at hok
  · rfl

lemma validateSpec_ok {t : List (String × YVal)} (hfp : fieldsPresent t = true)
    (hwf : wellFormed t = true) :
    validateSpec (Except.ok t)
      = .ok ⟨true, danglingRefs t, !(danglingRefs t).isEmpty⟩ := by
  unfold wellFormed at hwf
  rw [Bool.and_eq_true] at hwf
  obtain ⟨hwp, hwc⟩ := hwf
  rcases hp : (t.lookup "paths").getD (.map []) with s | n | xs | pm
  · rw [hp] at hwp; simp at hwp
  · rw [hp] at hwp; simp at hwp
  · rw [hp] at hwp; simp at hwp
  · rcases hc : (t.lookup "components").getD (.map []) with s | n | xs | ckvs
    · rw [hc] at hwc; simp at hwc
    · rw [hc] at hwc; simp at hwc
    · rw [hc] at hwc; simp at hwc
    · have hwc' : (match (ckvs.lookup "schemas").getD (.map []) with
          | YVal.map _ => true
          | _ => false) = true := by
        rw [hc] at hwc
        simpa using hwc
      rcases hsch : (ckvs.lookup "schemas").getD (.map []) with s | n | xs | skvs
      · rw [hsch] at hwc'; simp at hwc'
      · rw [hsch] at hwc'; simp at hwc'
      · rw [hsch] at hwc'; simp at hwc'
      · rw [hp] at hwp
        have hloop : pathsLoop pm = .ok () := by
          apply pathsLoop_ok
          intro x hx
          exact (List.all_eq_true.1 hwp) x hx
        have hso : schemasOf t = skvs := by
          simp [schemasOf, hc, hsch]
        have hdang : danglingRefs t
            = (findAllRefs (jsonDumps (.map t))).dedup.filter
                (fun r => !(hasKey skvs r)) := by
          simp [danglingRefs, hso]
        rw [validateSpec.eq_def]
        simp only [find?_requiredFields_none hfp, hp, hc, hsch]
        simp only [pyGet, pyLen, pyItems, hsch, collectMissing_map, hloop,
          Bind.bind, Except.bind, pure, Except.pure]
        rw [hdang]

/-- C8 counterexample: on a parsed document with all required fields
present, the run can still exit non-zero — `paths.items()` raises on the
string-valued `paths` and line 83's handler exits 1 — so the exit code is
not non-zero exactly on parse failure or a missing required field. -/
theorem validator_exception_exit_cex :
    fieldsPresent scalarPathsSpec = true ∧
    (runScript true (Except.ok scalarPathsSpec)).exitCode = 1 := by decide

/-- C8 (amended): exit code 0 implies the file parsed with all required
fields present; parse failure or a missing required field forces exit
code 1; and on a well-formed document the run exits 0 with the validator
returning success, the missing-reference warning printed exactly
when some reference names no schema — a dangling reference alone never
fails the run. -/
theorem validator_exit_characterization (d : Except Unit (List (String × YVal))) :
    ((runScript true d).exitCode = 0 →
       ∃ t, d = Except.ok t ∧ fieldsPresent t = true) ∧
    (d = Except.error () → (runScript true d).exitCode = 1) ∧
    (∀ t, d = Except.ok t → fieldsPresent t = false →
       (runScript true d).exitCode = 1) ∧
    (∀ t, d = Except.ok t → fieldsPresent t = true → wellFormed t = true →
       (runScript true d).exitCode = 0 ∧
       validateSpec d
         = Except.ok ⟨true, danglingRefs t, !(danglingRefs t).isEmpty⟩) := by
  refine ⟨?_, ?_, ?_, ?_⟩
  · intro h0
    rcases d with u | t
    · simp [runScript, validateSpec] at h0
    · refine ⟨t, rfl, ?_⟩
      rcases hv : validateSpec (Except.ok t) with u | r
      · rw [runScript.eq_def] at h0
        simp only [hv] at h0
        simp at h0
      · rcases hok : r.ok with _ | _
        · rw [runScript.eq_def] at h0
          simp only [hv, hok] at h0
          simp [hok] at h0
        · exact validateSpec_fields_ok hv hok
  · rintro rfl
    simp [runScript, validateSpec]
  · rintro t rfl hfp
    have hsome := find?_requiredFields_isSome hfp
    rcases hfind : requiredFields.find? (fun f => !(hasKey t f)) with _ | f
    · rw [hfind] at hsome; simp at hsome
    · rw [runScript.eq_def, validateSpec.eq_def]
      simp only [hfind]
      simp
  · rintro t rfl hfp hwf
    have hv := validateSpec_ok hfp hwf
    refine ⟨?_, hv⟩
    rw [runScript.eq_def]
    simp [hv]

theorem validator_exit_characterization_witness :
    fieldsPresent danglingRefSpec = true ∧ wellFormed danglingRefSpec = true ∧
    ((runScript true (Except.ok danglingRefSpec)).exitCode = 0 ∧
     validateSpec (Except.ok danglingRefSpec)
       = Except.ok ⟨true, danglingRefs danglingRefSpec,
           !(danglingRefs danglingRefSpec).isEmpty⟩) ∧
    danglingRefs danglingRefSpec = ["Missing"] :=
  ⟨by decide, by decide,
   (validator_exit_characterization (Except.ok danglingRefSpec)).2.2.2
     danglingRefSpec rfl (by decide) (by decide),
   by decide⟩

/-- C10: when the `yaml` import fails, the script skips validation for
every input — it prints the skip message, never runs the validator, and
exits 0 — including on inputs where the validator would exit non-zero,
such as a file that fails to parse. -/
theorem yaml_missing_skip :
    (∀ d, runScript false d = ⟨0, true, false⟩) ∧
    (runScript true (Except.error ())).exitCode = 1 ∧
    (runScript false (Except.error ())).exitCode = 0 :=
  ⟨fun _ => rfl, by decide, rfl⟩

/-- C7 counterexample: the regex demands a whitespace character after
`en`, so the line `"  default: en"` standing at the end of the input with
no trailing newline is not altered, contradicting the claim for that
line. -/
theorem fixQuoting_eof_cex :
    fixQuoting "  default: en" = "  default: en" ∧
    fixQuoting "  default: en" ≠ "  default: \"en\"" := by decide

/-- C7 (amended): a line `"  default: en"` whose value is followed by a
whitespace character — such as its newline terminator — becomes
`"  default: \"en\""`; a line at the very end of the input with no
trailing whitespace is left as is; and the superstring line
`"  default: enable"` is never altered. -/
theorem fixQuoting_behavior :
    fixQuoting "  default: en\n" = "  default: \"en\"\n" ∧
    fixQuoting "  default: enable\n" = "  default: enable\n" ∧
    fixQuoting "  default: en" = "  default: en" := by decide
